import Mathlib

/-!
Shallow embedding of the 3D engine-let in `src/Skeleton.cpp` (dual-number
automatic differentiation, parametric-surface tessellation, Phong-Blinn
shading, render-state assembly, idle-loop animation), together with proofs
of the specification claims about it.

Floating-point values are embedded as real numbers (`ℝ`) where analysis is
needed and as rationals (`ℚ`) where the claims are structural, with the
usual convention that machine-float rounding is abstracted away.
-/

namespace Grafika

/-! ## Vectors (framework value types `vec2`, `vec3`, `vec4`) -/

/-- Two-component vector, as the framework type `vec2` (componentwise
arithmetic). -/
structure vec2 where
  x : ℝ
  y : ℝ

/-- Three-component vector, as the framework type `vec3`. -/
structure vec3 where
  x : ℝ
  y : ℝ
  z : ℝ

/-- Four-component homogeneous vector, as the framework type `vec4`. -/
structure vec4 where
  x : ℝ
  y : ℝ
  z : ℝ
  w : ℝ

noncomputable instance : Add vec2 := ⟨fun a b => ⟨a.x + b.x, a.y + b.y⟩⟩
noncomputable instance : Sub vec2 := ⟨fun a b => ⟨a.x - b.x, a.y - b.y⟩⟩

/-- Scalar times `vec2`, as the framework `float * vec2`. -/
noncomputable def smul2 (a : ℝ) (v : vec2) : vec2 := ⟨a * v.x, a * v.y⟩

/-- `vec2` divided by a scalar, as the framework `vec2 / float`. -/
noncomputable def vdiv2 (v : vec2) (a : ℝ) : vec2 := ⟨v.x / a, v.y / a⟩

noncomputable instance : Add vec3 := ⟨fun a b => ⟨a.x + b.x, a.y + b.y, a.z + b.z⟩⟩
noncomputable instance : Sub vec3 := ⟨fun a b => ⟨a.x - b.x, a.y - b.y, a.z - b.z⟩⟩
noncomputable instance : Neg vec3 := ⟨fun a => ⟨-a.x, -a.y, -a.z⟩⟩

/-- Componentwise `vec3` product, as the framework `vec3 * vec3` (used for
color modulation such as `kd * texColor`). -/
noncomputable instance : Mul vec3 := ⟨fun a b => ⟨a.x * b.x, a.y * b.y, a.z * b.z⟩⟩

/-- Scalar times `vec3`. -/
noncomputable def smul3 (a : ℝ) (v : vec3) : vec3 := ⟨a * v.x, a * v.y, a * v.z⟩

/-- Dot product of two `vec3` values, as the framework/GLSL `dot`. -/
noncomputable def dot3 (a b : vec3) : ℝ := a.x * b.x + a.y * b.y + a.z * b.z

/-- Modelled from the spec: the framework helper `cross` (not under `src/`),
the standard 3D cross product used for "Normal = cross product of the two
tangent vectors". -/
noncomputable def cross3 (a b : vec3) : vec3 :=
  ⟨a.y * b.z - a.z * b.y, a.z * b.x - a.x * b.z, a.x * b.y - a.y * b.x⟩

/-- Modelled from the spec: the framework/GLSL `normalize` (not under
`src/`), `v / ‖v‖`; at the zero vector the division by zero follows the
Lean convention `x / 0 = 0`. -/
noncomputable def normalize3 (v : vec3) : vec3 :=
  smul3 (1 / Real.sqrt (dot3 v v)) v

/-! ## Lights, materials, render state (`struct Light`, `struct Material`,
`struct RenderState`, Skeleton.cpp lines 74-110) -/

/-- `struct Material` of Skeleton.cpp: reflectance coefficients. -/
structure Material where
  kd : vec3
  ks : vec3
  ka : vec3
  shininess : ℝ

/-- `struct Light` of Skeleton.cpp: intensities and homogeneous position. -/
structure Light where
  La : vec3
  Le : vec3
  wLightPos : vec4

/-- Matrices `mat4` are 4×4 real matrices; the code uses the row-vector
convention `vec4 * mat4`. -/
abbrev Mat4 := Matrix (Fin 4) (Fin 4) ℝ

/-- `struct RenderState` of Skeleton.cpp.  The `material` and `texture`
pointers start out unset (default-constructed) and are filled in by
`Object::Draw`; this is embedded with `Option` handles.  `Texture` and
`Material` objects are identified by abstract handles (`ℕ`). -/
structure RenderState where
  MVP : Mat4
  M : Mat4
  Minv : Mat4
  V : Mat4
  P : Mat4
  material : Option ℕ
  lights : List Light
  texture : Option ℕ
  wEye : vec3

/-! ## NPRShader::Bind (Skeleton.cpp lines 363-372)

`NPRShader::Bind` reads `state.lights[0]` unconditionally.  Indexing a
`std::vector` out of bounds is undefined behavior, so the binding is
embedded as a fallible operation returning `Option`: `none` exactly when
the light list is empty. -/

/-- The uniform values `NPRShader::Bind` hands to the NPR program. -/
structure NPRUniforms where
  MVP : Mat4
  M : Mat4
  Minv : Mat4
  wEye : vec3
  texture : Option ℕ
  wLightPos : vec4

/-- `NPRShader::Bind`: sets MVP/M/Minv/wEye/texture and the single uniform
`wLightPos` from `state.lights[0]`; out-of-bounds access on an empty light
list is modelled as `none`. -/
def NPRBind (state : RenderState) : Option NPRUniforms :=
  match state.lights with
  | [] => none
  | l :: _ =>
    some ⟨state.MVP, state.M, state.Minv, state.wEye, state.texture, l.wLightPos⟩

/-! ## ParamSurface::create and ParamSurface::Draw (Skeleton.cpp
lines 419-443)

`create(N, M)` fills the vertex buffer by the double loop
`for i in [0,N) for j in [0,M]` pushing `GenVertexData(j/M, i/N)` then
`GenVertexData(j/M, (i+1)/N)`, and records `nVtxPerStrip = (M+1)*2`,
`nStrips = N`.  `Draw` issues one `GL_TRIANGLE_STRIP` call per strip with
first vertex `i * nVtxPerStrip` and count `nVtxPerStrip`.  The vertex
generator is kept abstract (`gen : ℚ → ℚ → α`); sample parameters are exact
rationals. -/

/-- The vertex stream produced by `ParamSurface::create(N, M)`. -/
def createVertexList {α : Type} (gen : ℚ → ℚ → α) (N M : ℕ) : List α :=
  (List.range N).flatMap fun i =>
    (List.range (M + 1)).flatMap fun j =>
      [gen ((j : ℚ) / (M : ℚ)) ((i : ℚ) / (N : ℚ)),
       gen ((j : ℚ) / (M : ℚ)) (((i : ℚ) + 1) / (N : ℚ))]

/-- The mesh state recorded by `ParamSurface::create`. -/
structure SurfaceMesh (α : Type) where
  nVtxPerStrip : ℕ
  nStrips : ℕ
  vtxData : List α

/-- `ParamSurface::create(N, M)`. -/
def createMesh {α : Type} (gen : ℚ → ℚ → α) (N M : ℕ) : SurfaceMesh α :=
  ⟨(M + 1) * 2, N, createVertexList gen N M⟩

/-- `ParamSurface::Draw`: the list of `(first, count)` pairs of the issued
`glDrawArrays(GL_TRIANGLE_STRIP, i * nVtxPerStrip, nVtxPerStrip)` calls. -/
def drawMesh {α : Type} (m : SurfaceMesh α) : List (ℕ × ℕ) :=
  (List.range m.nStrips).map fun i => (i * m.nVtxPerStrip, m.nVtxPerStrip)

/-! ## onIdle (Skeleton.cpp lines 773-784)

`for (float t = tstart; t < tend; t += dt) { Dt = fmin(dt, tend - t);
scene.Animate(t, t + Dt); }` with `dt = 0.1`.  Times are embedded as exact
rationals; the loop is written with explicit fuel, `idleFuel` being an
upper bound on the number of iterations. -/

/-- One pass of the `onIdle` sub-stepping loop, recorded as the list of
`(t, t + Dt)` argument pairs passed to `scene.Animate`. -/
def onIdleAux : ℕ → ℚ → ℚ → List (ℚ × ℚ)
  | 0, _, _ => []
  | fuel + 1, t, tend =>
    if t < tend then
      (t, t + min (1 / 10) (tend - t)) :: onIdleAux fuel (t + 1 / 10) tend
    else []

/-- Enough fuel for the `onIdle` loop from `tstart` to `tend`. -/
def idleFuel (tstart tend : ℚ) : ℕ := (⌈(tend - tstart) * 10⌉).toNat

/-- The sequence of `scene.Animate(t, t + Dt)` calls issued by `onIdle`
for a frame spanning `[tstart, tend]`. -/
def animateCalls (tstart tend : ℚ) : List (ℚ × ℚ) :=
  onIdleAux (idleFuel tstart tend) tstart tend

/-! ## Dual numbers (`template<class T> struct Dnum`, Skeleton.cpp
lines 13-39), instantiated at `T = vec2` (`typedef Dnum<vec2> Dnum2`). -/

/-- `Dnum2 = Dnum<vec2>`: function value and gradient w.r.t. (u, v). -/
structure Dnum2 where
  f : ℝ
  d : vec2

/-- The implicit conversion `Dnum(float f0)`: constant with zero gradient. -/
def dConst (c : ℝ) : Dnum2 := ⟨c, ⟨0, 0⟩⟩

/-- `Dnum::operator+`. -/
noncomputable def dAdd (a r : Dnum2) : Dnum2 := ⟨a.f + r.f, a.d + r.d⟩

/-- `Dnum::operator-`. -/
noncomputable def dSub (a r : Dnum2) : Dnum2 := ⟨a.f - r.f, a.d - r.d⟩

/-- `Dnum::operator*`: `Dnum(f * r.f, f * r.d + d * r.f)`. -/
noncomputable def dMul (a r : Dnum2) : Dnum2 :=
  ⟨a.f * r.f, smul2 a.f r.d + smul2 r.f a.d⟩

/-- `Dnum::operator/`: `Dnum(f / r.f, (r.f * d - r.d * f) / r.f / r.f)`. -/
noncomputable def dDiv (a r : Dnum2) : Dnum2 :=
  ⟨a.f / r.f, vdiv2 (vdiv2 (smul2 r.f a.d - smul2 a.f r.d) r.f) r.f⟩

/-- `Exp`: `Dnum(expf(g.f), expf(g.f) * g.d)`. -/
noncomputable def dExp (g : Dnum2) : Dnum2 :=
  ⟨Real.exp g.f, smul2 (Real.exp g.f) g.d⟩

/-- `Sin`: `Dnum(sinf(g.f), cosf(g.f) * g.d)`. -/
noncomputable def dSin (g : Dnum2) : Dnum2 :=
  ⟨Real.sin g.f, smul2 (Real.cos g.f) g.d⟩

/-- `Cos`: `Dnum(cosf(g.f), -sinf(g.f) * g.d)`. -/
noncomputable def dCos (g : Dnum2) : Dnum2 :=
  ⟨Real.cos g.f, smul2 (-Real.sin g.f) g.d⟩

/-- `Tan`: `Sin(g) / Cos(g)`. -/
noncomputable def dTan (g : Dnum2) : Dnum2 := dDiv (dSin g) (dCos g)

/-- `Sinh`: `Dnum(sinh(g.f), cosh(g.f) * g.d)`. -/
noncomputable def dSinh (g : Dnum2) : Dnum2 :=
  ⟨Real.sinh g.f, smul2 (Real.cosh g.f) g.d⟩

/-- `Cosh`: `Dnum(cosh(g.f), sinh(g.f) * g.d)`. -/
noncomputable def dCosh (g : Dnum2) : Dnum2 :=
  ⟨Real.cosh g.f, smul2 (Real.sinh g.f) g.d⟩

/-- `Tanh`: `Sinh(g) / Cosh(g)`. -/
noncomputable def dTanh (g : Dnum2) : Dnum2 := dDiv (dSinh g) (dCosh g)

/-- `Log`: `Dnum(logf(g.f), g.d / g.f)`. -/
noncomputable def dLog (g : Dnum2) : Dnum2 :=
  ⟨Real.log g.f, vdiv2 g.d g.f⟩

/-- `Pow`: `Dnum(powf(g.f, n), n * powf(g.f, n - 1) * g.d)` (real
exponent, embedded with `Real.rpow`). -/
noncomputable def dPow (g : Dnum2) (n : ℝ) : Dnum2 :=
  ⟨g.f ^ n, smul2 (n * g.f ^ (n - 1)) g.d⟩

/-! ## Expressions over (u, v) built from the defined operators

`SurfExpr` is the syntax of "any composition built purely from the defined
operators and elementary functions" of the spec's central invariant;
`evalD` runs it through the dual-number combinators above, `evalR` is its
mathematical meaning as a two-parameter scalar function. -/

/-- Compositions of the `Dnum` operators and elementary functions of
Skeleton.cpp over the two parameters and real constants. -/
inductive SurfExpr : Type where
  | varU : SurfExpr
  | varV : SurfExpr
  | const : ℝ → SurfExpr
  | add : SurfExpr → SurfExpr → SurfExpr
  | sub : SurfExpr → SurfExpr → SurfExpr
  | mul : SurfExpr → SurfExpr → SurfExpr
  | div : SurfExpr → SurfExpr → SurfExpr
  | exp : SurfExpr → SurfExpr
  | sin : SurfExpr → SurfExpr
  | cos : SurfExpr → SurfExpr
  | tan : SurfExpr → SurfExpr
  | sinh : SurfExpr → SurfExpr
  | cosh : SurfExpr → SurfExpr
  | tanh : SurfExpr → SurfExpr
  | log : SurfExpr → SurfExpr
  | pow : SurfExpr → ℝ → SurfExpr

/-- The true scalar function an expression denotes (`tan` and `tanh` as the
quotients the code computes, which agree with the usual functions). -/
noncomputable def evalR : SurfExpr → ℝ → ℝ → ℝ
  | .varU, u, _ => u
  | .varV, _, v => v
  | .const c, _, _ => c
  | .add a b, u, v => evalR a u v + evalR b u v
  | .sub a b, u, v => evalR a u v - evalR b u v
  | .mul a b, u, v => evalR a u v * evalR b u v
  | .div a b, u, v => evalR a u v / evalR b u v
  | .exp a, u, v => Real.exp (evalR a u v)
  | .sin a, u, v => Real.sin (evalR a u v)
  | .cos a, u, v => Real.cos (evalR a u v)
  | .tan a, u, v => Real.sin (evalR a u v) / Real.cos (evalR a u v)
  | .sinh a, u, v => Real.sinh (evalR a u v)
  | .cosh a, u, v => Real.cosh (evalR a u v)
  | .tanh a, u, v => Real.sinh (evalR a u v) / Real.cosh (evalR a u v)
  | .log a, u, v => Real.log (evalR a u v)
  | .pow a n, u, v => (evalR a u v) ^ n

/-- Evaluation through the dual-number operators of Skeleton.cpp. -/
noncomputable def evalD : SurfExpr → Dnum2 → Dnum2 → Dnum2
  | .varU, U, _ => U
  | .varV, _, V => V
  | .const c, _, _ => dConst c
  | .add a b, U, V => dAdd (evalD a U V) (evalD b U V)
  | .sub a b, U, V => dSub (evalD a U V) (evalD b U V)
  | .mul a b, U, V => dMul (evalD a U V) (evalD b U V)
  | .div a b, U, V => dDiv (evalD a U V) (evalD b U V)
  | .exp a, U, V => dExp (evalD a U V)
  | .sin a, U, V => dSin (evalD a U V)
  | .cos a, U, V => dCos (evalD a U V)
  | .tan a, U, V => dTan (evalD a U V)
  | .sinh a, U, V => dSinh (evalD a U V)
  | .cosh a, U, V => dCosh (evalD a U V)
  | .tanh a, U, V => dTanh (evalD a U V)
  | .log a, U, V => dLog (evalD a U V)
  | .pow a n, U, V => dPow (evalD a U V) n

/-- Domain conditions at a sample point: every division has a nonzero
denominator, `tan` avoids zeros of cosine, `log` and `pow` see positive
arguments (where `logf`/`powf` are defined and differentiable). -/
def WF : SurfExpr → ℝ → ℝ → Prop
  | .varU, _, _ => True
  | .varV, _, _ => True
  | .const _, _, _ => True
  | .add a b, u, v => WF a u v ∧ WF b u v
  | .sub a b, u, v => WF a u v ∧ WF b u v
  | .mul a b, u, v => WF a u v ∧ WF b u v
  | .div a b, u, v => WF a u v ∧ WF b u v ∧ evalR b u v ≠ 0
  | .exp a, u, v => WF a u v
  | .sin a, u, v => WF a u v
  | .cos a, u, v => WF a u v
  | .tan a, u, v => WF a u v ∧ Real.cos (evalR a u v) ≠ 0
  | .sinh a, u, v => WF a u v
  | .cosh a, u, v => WF a u v
  | .tanh a, u, v => WF a u v
  | .log a, u, v => WF a u v ∧ 0 < evalR a u v
  | .pow a _, u, v => WF a u v ∧ 0 < evalR a u v

/-! ## ParamSurface::GenVertexData (Skeleton.cpp lines 407-417) and
Sphere::eval (lines 451-454) -/

/-- `ParamSurface::VertexData`. -/
structure VertexData where
  position : vec3
  normal : vec3
  texcoord : vec2

/-- `ParamSurface::GenVertexData(u, v)` for an arbitrary surface evaluator:
seed `U = Dnum2(u, vec2(1, 0))`, `V = Dnum2(v, vec2(0, 1))`, evaluate, read
the position from the value components and the normal as the cross product
of the two tangent vectors taken from the gradients. -/
noncomputable def GenVertexData
    (eval : Dnum2 → Dnum2 → Dnum2 × Dnum2 × Dnum2) (u v : ℝ) : VertexData :=
  let U : Dnum2 := ⟨u, ⟨1, 0⟩⟩
  let V : Dnum2 := ⟨v, ⟨0, 1⟩⟩
  let XYZ := eval U V
  let X := XYZ.1
  let Y := XYZ.2.1
  let Z := XYZ.2.2
  { position := ⟨X.f, Y.f, Z.f⟩,
    normal := cross3 ⟨X.d.x, Y.d.x, Z.d.x⟩ ⟨X.d.y, Y.d.y, Z.d.y⟩,
    texcoord := ⟨u, v⟩ }

/-- `Sphere::eval`: `U = U*2*π, V = V*π; X = Cos(U)*Sin(V);
Y = Sin(U)*Sin(V); Z = Cos(V)`. -/
noncomputable def sphereEval (U V : Dnum2) : Dnum2 × Dnum2 × Dnum2 :=
  let U2 := dMul (dMul U (dConst 2)) (dConst Real.pi)
  let V2 := dMul V (dConst Real.pi)
  (dMul (dCos U2) (dSin V2), dMul (dSin U2) (dSin V2), dCos V2)

/-- Euclidean norm of a `vec3` (the spec's `‖position‖`). -/
noncomputable def norm3 (v : vec3) : ℝ := Real.sqrt (dot3 v v)

/-! ## Modeling transforms (Object::SetModelingTransform, Skeleton.cpp
lines 532-535)

The matrix helpers `ScaleMatrix`, `RotationMatrix`, `TranslateMatrix` live
in `framework.h`, which is not under `src/`; they are modelled from the
spec (row-vector convention `vec4 * mat4`, affine transforms with the
translation in the fourth row).  The rotation follows the in-source free
function `rotationMatrix` (Skeleton.cpp lines 672-683): normalize the
axis, then the Rodrigues axis-angle matrix. -/

/-- Modelled from the spec: `TranslateMatrix` of `framework.h` (not under
`src/`), affine translation for row vectors. -/
noncomputable def TranslateMatrix (t : vec3) : Mat4 :=
  Matrix.of ![![1, 0, 0, 0], ![0, 1, 0, 0], ![0, 0, 1, 0], ![t.x, t.y, t.z, 1]]

/-- Modelled from the spec: `ScaleMatrix` of `framework.h` (not under
`src/`), componentwise scale. -/
noncomputable def ScaleMatrix (s : vec3) : Mat4 :=
  Matrix.of ![![s.x, 0, 0, 0], ![0, s.y, 0, 0], ![0, 0, s.z, 0], ![0, 0, 0, 1]]

/-- Modelled from the spec: `RotationMatrix(angle, axis)` of `framework.h`
(not under `src/`): axis-angle rotation, following the in-source
`rotationMatrix` (Skeleton.cpp lines 672-683), which normalizes the axis
and builds the Rodrigues matrix. -/
noncomputable def RotationMatrix (angle : ℝ) (axis : vec3) : Mat4 :=
  let a := normalize3 axis
  let s := Real.sin angle
  let c := Real.cos angle
  let oc := 1 - c
  Matrix.of
    ![![oc * a.x * a.x + c, oc * a.x * a.y - a.z * s, oc * a.z * a.x + a.y * s, 0],
      ![oc * a.x * a.y + a.z * s, oc * a.y * a.y + c, oc * a.y * a.z - a.x * s, 0],
      ![oc * a.z * a.x - a.y * s, oc * a.y * a.z + a.x * s, oc * a.z * a.z + c, 0],
      ![0, 0, 0, 1]]

/-- Row vector times matrix, the framework's `vec4 * mat4`. -/
noncomputable def mulVec4 (p : vec4) (m : Mat4) : vec4 :=
  ⟨p.x * m 0 0 + p.y * m 1 0 + p.z * m 2 0 + p.w * m 3 0,
   p.x * m 0 1 + p.y * m 1 1 + p.z * m 2 1 + p.w * m 3 1,
   p.x * m 0 2 + p.y * m 1 2 + p.z * m 2 2 + p.w * m 3 2,
   p.x * m 0 3 + p.y * m 1 3 + p.z * m 2 3 + p.w * m 3 3⟩

/-- `struct Object` of Skeleton.cpp (shader/material/texture/geometry held
by non-owning reference, embedded as abstract handles). -/
structure Object where
  shader : ℕ
  material : ℕ
  texture : ℕ
  geometry : ℕ
  scale : vec3
  translation : vec3
  rotationAxis : vec3
  rotationAngle : ℝ

/-- `Object::SetModelingTransform`:
`M = ScaleMatrix(scale) * RotationMatrix(angle, axis) * TranslateMatrix(t)`
and `Minv = TranslateMatrix(-t) * RotationMatrix(-angle, axis) *
ScaleMatrix(1/s)`. -/
noncomputable def SetModelingTransform (o : Object) : Mat4 × Mat4 :=
  (ScaleMatrix o.scale * RotationMatrix o.rotationAngle o.rotationAxis *
     TranslateMatrix o.translation,
   TranslateMatrix (-o.translation) *
     RotationMatrix (-o.rotationAngle) o.rotationAxis *
     ScaleMatrix ⟨1 / o.scale.x, 1 / o.scale.y, 1 / o.scale.z⟩)

/-- `Object::Draw(RenderState state)`: the parameter is taken by value, so
only the local copy is updated; the function leaves the object untouched
and hands the updated copy to `shader->Bind`.  The embedding returns the
(unchanged) object together with the state copy that is bound. -/
noncomputable def ObjectDraw (o : Object) (state : RenderState) :
    Object × RenderState :=
  let Mm := SetModelingTransform o
  (o,
   { state with
     M := Mm.1
     Minv := Mm.2
     MVP := Mm.1 * state.V * state.P
     material := some o.material
     texture := some o.texture })

/-- `struct Camera` of Skeleton.cpp. -/
structure Camera where
  wEye : vec3
  wLookat : vec3
  wVup : vec3
  fov : ℝ
  asp : ℝ
  fp : ℝ
  bp : ℝ

/-- `Camera::V()`: look-at view matrix. -/
noncomputable def Camera.V (c : Camera) : Mat4 :=
  let w := normalize3 (c.wEye - c.wLookat)
  let u := normalize3 (cross3 c.wVup w)
  let v := cross3 w u
  TranslateMatrix (-c.wEye) *
    Matrix.of ![![u.x, v.x, w.x, 0], ![u.y, v.y, w.y, 0],
                ![u.z, v.z, w.z, 0], ![0, 0, 0, 1]]

/-- `Camera::P()`: perspective projection matrix. -/
noncomputable def Camera.P (c : Camera) : Mat4 :=
  Matrix.of
    ![![1 / (Real.tan (c.fov / 2) * c.asp), 0, 0, 0],
      ![0, 1 / Real.tan (c.fov / 2), 0, 0],
      ![0, 0, -(c.fp + c.bp) / (c.bp - c.fp), -1],
      ![0, 0, -2 * c.fp * c.bp / (c.bp - c.fp), 0]]

/-- `class Scene` of Skeleton.cpp (objects, camera, lights). -/
structure Scene where
  objects : List Object
  camera : Camera
  lights : List Light

/-- `Scene::Render`: build one `RenderState` from the camera and lights
(the matrix fields `MVP`, `M`, `Minv` of a fresh `RenderState` are not yet
meaningful; they are written as `1` placeholders and overwritten in
`Object::Draw`), then draw every object with that same state, passed by
value.  The embedding records the state copy each object's shader is bound
with. -/
noncomputable def SceneRender (sc : Scene) : List RenderState :=
  let state : RenderState :=
    { MVP := 1, M := 1, Minv := 1, V := sc.camera.V, P := sc.camera.P,
      material := none, texture := none, lights := sc.lights,
      wEye := sc.camera.wEye }
  sc.objects.map fun o => (ObjectDraw o state).2

/-! ## Shading formulas (GLSL sources inside Skeleton.cpp)

The shader program text is embedded by translating the GLSL `main`
functions; GLSL built-ins `normalize`, `dot`, `max`, `pow` become their
mathematical counterparts. -/

/-- The light-vector construction shared by all three vertex shaders
(Skeleton.cpp lines 170, 239, 334):
`L = lightPos.xyz * wPos.w - wPos.xyz * lightPos.w`. -/
noncomputable def wLightVec (lightPos : vec4) (wPos : vec4) : vec3 :=
  ⟨lightPos.x * wPos.w - wPos.x * lightPos.w,
   lightPos.y * wPos.w - wPos.y * lightPos.w,
   lightPos.z * wPos.w - wPos.z * lightPos.w⟩

/-- `vec3` times scalar, the GLSL `vec3 * float`. -/
noncomputable instance : HMul vec3 ℝ vec3 :=
  ⟨fun v a => ⟨v.x * a, v.y * a, v.z * a⟩⟩

/-- Sum of a list of colors. -/
noncomputable def sum3 (l : List vec3) : vec3 := l.foldr (· + ·) ⟨0, 0, 0⟩

/-- The `PhongShader` fragment `main` (Skeleton.cpp lines 274-292): inputs
are the interpolated `wNormal`, `wView`, the texture sample `texColor`,
and, per light, the light data and its interpolated `wLight[i]` vector.
The loop accumulates
`radiance += ka * La + (kd * texColor * cost + ks * pow(cosd, shininess)) * Le`
with `ka = material.ka * texColor` and `kd = material.kd * texColor`. -/
noncomputable def phongFragment (material : Material) (texColor : vec3)
    (wNormal wView : vec3) (lightsIn : List (Light × vec3)) : vec3 :=
  let N0 := normalize3 wNormal
  let Vv := normalize3 wView
  let N := if dot3 N0 Vv < 0 then -N0 else N0
  let ka := material.ka * texColor
  let kd := material.kd * texColor
  lightsIn.foldl
    (fun radiance li =>
      let L := normalize3 li.2
      let H := normalize3 (L + Vv)
      let cost := max (dot3 N L) 0
      let cosd := max (dot3 N H) 0
      radiance +
        (ka * li.1.La +
          (kd * texColor * cost + material.ks * (cosd ^ material.shininess)) *
            li.1.Le))
    ⟨0, 0, 0⟩

/-- The radiance formula as the claim states it (for comparison with
`phongFragment`): the sum over lights of
`ka·La + (kd·cosθ + ks·cosφ^shininess)·Le` where the diffuse and ambient
coefficients are the material coefficients modulated by the texture color
exactly once. -/
noncomputable def phongClaimRadiance (material : Material) (texColor : vec3)
    (wNormal wView : vec3) (lightsIn : List (Light × vec3)) : vec3 :=
  let N0 := normalize3 wNormal
  let Vv := normalize3 wView
  let N := if dot3 N0 Vv < 0 then -N0 else N0
  let ka := material.ka * texColor
  let kd := material.kd * texColor
  sum3 (lightsIn.map fun li =>
    let L := normalize3 li.2
    let H := normalize3 (L + Vv)
    let cost := max (dot3 N L) 0
    let cosd := max (dot3 N H) 0
    ka * li.1.La +
      (kd * cost + material.ks * (cosd ^ material.shininess)) * li.1.Le)

/-! ## Correctness predicate for dual-number evaluation

`IsD F u v g` says the dual number `g` carries the value of the
two-parameter function `F` at `(u, v)` and its two partial derivatives
there. -/

/-- `g` carries the value and both partial derivatives of `F` at `(u, v)`. -/
def IsD (F : ℝ → ℝ → ℝ) (u v : ℝ) (g : Dnum2) : Prop :=
  g.f = F u v ∧
  HasDerivAt (fun x => F x v) g.d.x u ∧
  HasDerivAt (fun y => F u y) g.d.y v

/-- The composition `u * v`, a sample expression. -/
def eUV : SurfExpr := SurfExpr.mul SurfExpr.varU SurfExpr.varV

/-- A sample light for concrete instances. -/
def light0 : Light := ⟨⟨0, 0, 0⟩, ⟨0, 0, 0⟩, ⟨0, 0, 0, 1⟩⟩

/-- A sample camera for concrete instances. -/
def camera0 : Camera := ⟨⟨0, 0, 0⟩, ⟨0, 0, 0⟩, ⟨0, 0, 0⟩, 0, 0, 0, 0⟩

/-- A sample object for concrete instances. -/
def object0 : Object := ⟨0, 0, 0, 0, ⟨1, 1, 1⟩, ⟨0, 0, 0⟩, ⟨0, 0, 0⟩, 0⟩

/-- A sample one-object scene for concrete instances. -/
def scene0 : Scene := ⟨[object0], camera0, [light0]⟩

/-- A sample render state with one light for concrete instances. -/
noncomputable def renderState0 : RenderState :=
  ⟨1, 1, 1, 1, 1, none, [light0], none, ⟨0, 0, 0⟩⟩

/-- An object with identity scale, no translation, and a **zero** rotation
axis with a quarter-turn angle (the degenerate case for the modeling
transform round trip). -/
noncomputable def badObject : Object :=
  ⟨0, 0, 0, 0, ⟨1, 1, 1⟩, ⟨0, 0, 0⟩, ⟨0, 0, 0⟩, Real.pi / 2⟩

/-! # Theorems -/

/-! ### Componentwise simp lemmas for the vector operations -/

@[simp] theorem add2_x (a b : vec2) : (a + b).x = a.x + b.x := rfl
@[simp] theorem add2_y (a b : vec2) : (a + b).y = a.y + b.y := rfl
@[simp] theorem sub2_x (a b : vec2) : (a - b).x = a.x - b.x := rfl
@[simp] theorem sub2_y (a b : vec2) : (a - b).y = a.y - b.y := rfl
@[simp] theorem smul2_x (a : ℝ) (v : vec2) : (smul2 a v).x = a * v.x := rfl
@[simp] theorem smul2_y (a : ℝ) (v : vec2) : (smul2 a v).y = a * v.y := rfl
@[simp] theorem vdiv2_x (v : vec2) (a : ℝ) : (vdiv2 v a).x = v.x / a := rfl
@[simp] theorem vdiv2_y (v : vec2) (a : ℝ) : (vdiv2 v a).y = v.y / a := rfl

@[simp] theorem add3_x (a b : vec3) : (a + b).x = a.x + b.x := rfl
@[simp] theorem add3_y (a b : vec3) : (a + b).y = a.y + b.y := rfl
@[simp] theorem add3_z (a b : vec3) : (a + b).z = a.z + b.z := rfl
@[simp] theorem sub3_x (a b : vec3) : (a - b).x = a.x - b.x := rfl
@[simp] theorem sub3_y (a b : vec3) : (a - b).y = a.y - b.y := rfl
@[simp] theorem sub3_z (a b : vec3) : (a - b).z = a.z - b.z := rfl
@[simp] theorem neg3_x (a : vec3) : (-a).x = -a.x := rfl
@[simp] theorem neg3_y (a : vec3) : (-a).y = -a.y := rfl
@[simp] theorem neg3_z (a : vec3) : (-a).z = -a.z := rfl
@[simp] theorem mul3_x (a b : vec3) : (a * b).x = a.x * b.x := rfl
@[simp] theorem mul3_y (a b : vec3) : (a * b).y = a.y * b.y := rfl
@[simp] theorem mul3_z (a b : vec3) : (a * b).z = a.z * b.z := rfl
@[simp] theorem smul3_x (a : ℝ) (v : vec3) : (smul3 a v).x = a * v.x := rfl
@[simp] theorem smul3_y (a : ℝ) (v : vec3) : (smul3 a v).y = a * v.y := rfl
@[simp] theorem smul3_z (a : ℝ) (v : vec3) : (smul3 a v).z = a * v.z := rfl
@[simp] theorem hmul3_x (v : vec3) (a : ℝ) : (v * a).x = v.x * a := rfl
@[simp] theorem hmul3_y (v : vec3) (a : ℝ) : (v * a).y = v.y * a := rfl
@[simp] theorem hmul3_z (v : vec3) (a : ℝ) : (v * a).z = v.z * a := rfl

/-! ### C9: NPRShader::Bind needs a non-empty light list -/

/-- C9: `NPRShader::Bind` reads only `state.lights[0]`: on an empty light
list the access is out of bounds (modelled as `none`), and on any state
whose light list starts with `l` it binds exactly
MVP/M/Minv/wEye/texture and `l.wLightPos`, independent of all other
lights. -/
theorem nprBind_requires_light :
    (∀ s : RenderState, s.lights = [] → NPRBind s = none) ∧
    (∀ (s : RenderState) (l : Light) (rest : List Light),
      s.lights = l :: rest →
      NPRBind s =
        some ⟨s.MVP, s.M, s.Minv, s.wEye, s.texture, l.wLightPos⟩) := by
  constructor
  · intro s h
    simp [NPRBind, h]
  · intro s l rest h
    simp [NPRBind, h]

/-- Witness for C9 at a concrete one-light render state. -/
theorem nprBind_requires_light_witness :
    renderState0.lights = light0 :: [] ∧
    NPRBind renderState0 =
      some ⟨renderState0.MVP, renderState0.M, renderState0.Minv,
            renderState0.wEye, renderState0.texture, light0.wLightPos⟩ :=
  ⟨rfl, nprBind_requires_light.2 renderState0 light0 [] rfl⟩

/-! ### C10: Object::Draw mutates only its local state copy -/

/-- C10: `Object::Draw` takes the render state by value and returns the
object unchanged; the state copy it binds keeps the caller's view matrix,
projection matrix, eye position and light list; hence in `Scene::Render`
every object is drawn with the same camera matrices, eye position and
lights. -/
theorem draw_preserves_state :
    (∀ (o : Object) (s : RenderState), (ObjectDraw o s).1 = o) ∧
    (∀ (o : Object) (s : RenderState),
      (ObjectDraw o s).2.V = s.V ∧ (ObjectDraw o s).2.P = s.P ∧
      (ObjectDraw o s).2.wEye = s.wEye ∧
      (ObjectDraw o s).2.lights = s.lights) ∧
    (∀ sc : Scene, ∀ st ∈ SceneRender sc,
      st.V = sc.camera.V ∧ st.P = sc.camera.P ∧
      st.wEye = sc.camera.wEye ∧ st.lights = sc.lights) := by
  refine ⟨fun o s => rfl, fun o s => ⟨rfl, rfl, rfl, rfl⟩, ?_⟩
  intro sc st hst
  simp only [SceneRender, List.mem_map] at hst
  obtain ⟨o, _, rfl⟩ := hst
  exact ⟨rfl, rfl, rfl, rfl⟩

/-- Witness for C10 at a concrete one-object scene. -/
theorem draw_preserves_state_witness :
    (∃ st, st ∈ SceneRender scene0) ∧
    ((ObjectDraw object0
        { MVP := 1, M := 1, Minv := 1, V := scene0.camera.V,
          P := scene0.camera.P, material := none, texture := none,
          lights := scene0.lights, wEye := scene0.camera.wEye }).2.lights =
      scene0.lights) := by
  have hmem : (ObjectDraw object0
      { MVP := 1, M := 1, Minv := 1, V := scene0.camera.V,
        P := scene0.camera.P, material := none, texture := none,
        lights := scene0.lights, wEye := scene0.camera.wEye }).2 ∈
      SceneRender scene0 := by
    simp [SceneRender, scene0]
  exact ⟨⟨_, hmem⟩, (draw_preserves_state.2.2 scene0 _ hmem).2.2.2⟩

/-! ### C5: homogeneous light-vector construction -/

/-- C5: the shared construction `L = lightPos.xyz * wPos.w - wPos.xyz *
lightPos.w` makes a `w = 0` light direction independent of the fragment
position (equal to `lightPos.xyz` for any fragment with `wPos.w = 1`, and
equal for any two fragments with the same `w`), while a `w = 1` light
yields `lightPos.xyz - fragPos`. -/
theorem light_vector_homogeneous :
    (∀ l wPos : vec4, l.w = 0 → wPos.w = 1 →
      wLightVec l wPos = ⟨l.x, l.y, l.z⟩) ∧
    (∀ l p q : vec4, l.w = 0 → p.w = q.w →
      wLightVec l p = wLightVec l q) ∧
    (∀ l wPos : vec4, l.w = 1 → wPos.w = 1 →
      wLightVec l wPos = ⟨l.x - wPos.x, l.y - wPos.y, l.z - wPos.z⟩) := by
  refine ⟨?_, ?_, ?_⟩
  · intro l wPos hl hw
    simp [wLightVec, hl, hw]
  · intro l p q hl hw
    simp [wLightVec, hl, hw]
  · intro l wPos hl hw
    simp [wLightVec, hl, hw]

/-- Witness for C5 at a concrete directional light and fragment. -/
theorem light_vector_homogeneous_witness :
    (⟨1, 2, 3, 0⟩ : vec4).w = 0 ∧ (⟨5, 6, 7, 1⟩ : vec4).w = 1 ∧
    wLightVec ⟨1, 2, 3, 0⟩ ⟨5, 6, 7, 1⟩ = ⟨1, 2, 3⟩ :=
  ⟨rfl, rfl, light_vector_homogeneous.1 ⟨1, 2, 3, 0⟩ ⟨5, 6, 7, 1⟩ rfl rfl⟩

/-! ### C2: tessellation layout -/

/-- Length of a `flatMap` over `range` whose blocks all have length `L`. -/
theorem length_flatMap_range {α : Type} (f : ℕ → List α) (n L : ℕ)
    (h : ∀ i, (f i).length = L) :
    ((List.range n).flatMap f).length = n * L := by
  induction n with
  | zero => simp
  | succ n ih =>
    rw [List.range_succ, List.flatMap_append]
    simp [ih, h, Nat.succ_mul]

/-- Indexing into a `flatMap` over `range` with constant block length. -/
theorem getElem_flatMap_range {α : Type} (f : ℕ → List α) (n L : ℕ)
    (h : ∀ i, (f i).length = L) (i r : ℕ) (hi : i < n) (hr : r < L) :
    ((List.range n).flatMap f)[i * L + r]? = (f i)[r]? := by
  induction n with
  | zero => omega
  | succ n ih =>
    rw [List.range_succ, List.flatMap_append]
    rcases Nat.lt_succ_iff_lt_or_eq.mp hi with hlt | heq
    · rw [List.getElem?_append]
      have hidx : i * L + r < ((List.range n).flatMap f).length := by
        rw [length_flatMap_range f n L h]
        have : i * L + r < (i + 1) * L := by
          rw [Nat.succ_mul]; omega
        have h2 : (i + 1) * L ≤ n * L := Nat.mul_le_mul_right L hlt
        omega
      simp only [hidx, if_pos]
      exact ih hlt
    · subst heq
      rw [List.getElem?_append]
      have hlen : ((List.range i).flatMap f).length = i * L :=
        length_flatMap_range f i L h
      have hnot : ¬ (i * L + r < ((List.range i).flatMap f).length) := by omega
      simp only [hnot, if_neg, not_false_iff]
      rw [hlen]
      simp

/-- C2: `create(N, M)` produces exactly `N * (M+1) * 2` vertices; within
strip `i`, for each `j ≤ M`, the vertex sampled at `(j/M, i/N)` is
immediately followed by the vertex sampled at `(j/M, (i+1)/N)`; and `Draw`
issues exactly `N` triangle-strip calls of `(M+1) * 2` vertices each. -/
theorem tessellation_spec {α : Type} (gen : ℚ → ℚ → α) (N M : ℕ)
    (hN : 1 ≤ N) (hM : 1 ≤ M) :
    (createMesh gen N M).vtxData.length = N * ((M + 1) * 2) ∧
    (∀ i j, i < N → j ≤ M →
      (createMesh gen N M).vtxData[i * ((M + 1) * 2) + 2 * j]? =
        some (gen ((j : ℚ) / (M : ℚ)) ((i : ℚ) / (N : ℚ))) ∧
      (createMesh gen N M).vtxData[i * ((M + 1) * 2) + 2 * j + 1]? =
        some (gen ((j : ℚ) / (M : ℚ)) (((i : ℚ) + 1) / (N : ℚ)))) ∧
    (drawMesh (createMesh gen N M)).length = N ∧
    (∀ c ∈ drawMesh (createMesh gen N M), c.2 = (M + 1) * 2) := by
  have hinner : ∀ i : ℕ,
      (((List.range (M + 1)).flatMap fun j =>
        [gen ((j : ℚ) / (M : ℚ)) ((i : ℚ) / (N : ℚ)),
         gen ((j : ℚ) / (M : ℚ)) (((i : ℚ) + 1) / (N : ℚ))]).length) =
        (M + 1) * 2 := by
    intro i
    exact length_flatMap_range _ (M + 1) 2 (fun _ => rfl)
  refine ⟨?_, ?_, ?_, ?_⟩
  · exact length_flatMap_range _ N ((M + 1) * 2) hinner
  · intro i j hi hj
    have hblock : ∀ r : ℕ, r < 2 →
        (createMesh gen N M).vtxData[i * ((M + 1) * 2) + (j * 2 + r)]? =
        ([gen ((j : ℚ) / (M : ℚ)) ((i : ℚ) / (N : ℚ)),
          gen ((j : ℚ) / (M : ℚ)) (((i : ℚ) + 1) / (N : ℚ))])[r]? := by
      intro r hr
      have hjr : j * 2 + r < (M + 1) * 2 := by
        have : (j + 1) * 2 ≤ (M + 1) * 2 := Nat.mul_le_mul_right 2 (by omega)
        omega
      show (createVertexList gen N M)[i * ((M + 1) * 2) + (j * 2 + r)]? = _
      rw [createVertexList,
        getElem_flatMap_range _ N ((M + 1) * 2) hinner i (j * 2 + r) hi hjr,
        getElem_flatMap_range
          (fun j => [gen ((j : ℚ) / (M : ℚ)) ((i : ℚ) / (N : ℚ)),
                     gen ((j : ℚ) / (M : ℚ)) (((i : ℚ) + 1) / (N : ℚ))])
          (M + 1) 2 (fun _ => rfl) j r (by omega) hr]
    constructor
    · have h0 := hblock 0 (by omega)
      have he : i * ((M + 1) * 2) + 2 * j = i * ((M + 1) * 2) + (j * 2 + 0) := by
        ring
      rw [he, h0]
      simp
    · have h1 := hblock 1 (by omega)
      have he : i * ((M + 1) * 2) + 2 * j + 1 =
          i * ((M + 1) * 2) + (j * 2 + 1) := by ring
      rw [he, h1]
      simp
  · simp [drawMesh, createMesh]
  · intro c hc
    simp only [drawMesh, createMesh, List.mem_map] at hc
    obtain ⟨i, _, rfl⟩ := hc
    rfl

/-- Witness for C2 at resolution `(1, 1)` with the identity sampler. -/
theorem tessellation_spec_witness :
    (1 : ℕ) ≤ 1 ∧
    (createMesh (fun u v => (u, v)) 1 1).vtxData.length = 1 * ((1 + 1) * 2) ∧
    (createMesh (fun u v => (u, v)) 1 1).vtxData[0]? = some ((0 : ℚ), (0 : ℚ)) := by
  refine ⟨le_refl 1, (tessellation_spec (fun u v => (u, v)) 1 1 (le_refl 1) (le_refl 1)).1, ?_⟩
  have h := ((tessellation_spec (fun u v => (u, v)) 1 1 (le_refl 1)
    (le_refl 1)).2.1 0 0 (by omega) (by omega)).1
  simpa using h


/-! ### C8: idle-loop sub-stepping -/

/-- A non-empty idle loop starts with the sub-interval at `t`. -/
theorem onIdleAux_head (fuel : ℕ) (t tend : ℚ) (hf : 1 ≤ fuel) (h : t < tend) :
    ∃ rest, onIdleAux fuel t tend = (t, t + min (1 / 10) (tend - t)) :: rest := by
  cases fuel with
  | zero => omega
  | succ k =>
    exact ⟨onIdleAux k (t + 1 / 10) tend, by rw [onIdleAux, if_pos h]⟩

theorem onIdleAux_mem (fuel : ℕ) :
    ∀ t tend : ℚ, ∀ p ∈ onIdleAux fuel t tend,
      p.2 = p.1 + min (1 / 10) (tend - p.1) ∧ p.1 < tend := by
  induction fuel with
  | zero => intro t tend p hp; simp [onIdleAux] at hp
  | succ k ih =>
    intro t tend p hp
    rw [onIdleAux] at hp
    by_cases h : t < tend
    · rw [if_pos h] at hp
      rcases List.mem_cons.mp hp with rfl | hmem
      · exact ⟨rfl, h⟩
      · exact ih _ _ p hmem
    · rw [if_neg h] at hp; simp at hp

theorem onIdleAux_chain (fuel : ℕ) :
    ∀ t tend : ℚ, List.Chain' (fun p q : ℚ × ℚ => q.1 = p.2) (onIdleAux fuel t tend) := by
  induction fuel with
  | zero => intro t tend; simp [onIdleAux]
  | succ k ih =>
    intro t tend
    rw [onIdleAux]
    by_cases h : t < tend
    · rw [if_pos h]
      rw [List.chain'_cons']
      refine ⟨?_, ih _ _⟩
      intro q hq
      cases k with
      | zero => simp [onIdleAux] at hq
      | succ m =>
        rw [onIdleAux] at hq
        by_cases h2 : t + 1 / 10 < tend
        · rw [if_pos h2] at hq
          simp only [List.head?_cons, Option.mem_def, Option.some.injEq] at hq
          subst hq
          simp only
          have : min (1 / 10 : ℚ) (tend - t) = 1 / 10 := by
            apply min_eq_left; linarith
          rw [this]
        · rw [if_neg h2] at hq; simp at hq
    · rw [if_neg h]; simp

theorem onIdleAux_last (fuel : ℕ) :
    ∀ t tend : ℚ, (tend - t) * 10 ≤ (fuel : ℚ) → t < tend →
      ∃ q, (onIdleAux fuel t tend).getLast? = some q ∧ q.2 = tend := by
  induction fuel with
  | zero =>
    intro t tend hs h
    exfalso
    simp only [Nat.cast_zero] at hs
    nlinarith
  | succ k ih =>
    intro t tend hs h
    rw [onIdleAux, if_pos h]
    by_cases h2 : t + 1 / 10 < tend
    · have hs2 : (tend - (t + 1 / 10)) * 10 ≤ (k : ℚ) := by
        push_cast at hs ⊢
        linarith
      obtain ⟨q, hq, hq2⟩ := ih (t + 1 / 10) tend hs2 h2
      refine ⟨q, ?_, hq2⟩
      cases hrest : onIdleAux k (t + 1 / 10) tend with
      | nil => rw [hrest] at hq; simp at hq
      | cons r rs =>
        rw [hrest] at hq
        exact hq
    · have hmin : min (1 / 10 : ℚ) (tend - t) = tend - t := by
        apply min_eq_right; linarith
      have hstop : onIdleAux k (t + 1 / 10) tend = [] := by
        cases k with
        | zero => rfl
        | succ m => rw [onIdleAux, if_neg h2]
      rw [hstop]
      exact ⟨(t, t + min (1 / 10) (tend - t)), by simp, by rw [hmin]; ring⟩

theorem onIdleAux_cover (fuel : ℕ) :
    ∀ t tend : ℚ, (tend - t) * 10 ≤ (fuel : ℚ) → t < tend →
      ∀ x : ℚ, t ≤ x → x ≤ tend →
        ∃ p ∈ onIdleAux fuel t tend, p.1 ≤ x ∧ x ≤ p.2 := by
  induction fuel with
  | zero =>
    intro t tend hs h
    exfalso
    simp only [Nat.cast_zero] at hs
    nlinarith
  | succ k ih =>
    intro t tend hs h x hx1 hx2
    rw [onIdleAux, if_pos h]
    by_cases hxe : x ≤ t + min (1 / 10) (tend - t)
    · exact ⟨(t, t + min (1 / 10) (tend - t)), List.mem_cons_self _ _, hx1, hxe⟩
    · push_neg at hxe
      have hlt : t + min (1 / 10) (tend - t) < tend := by
        rcases le_or_lt (1 / 10 : ℚ) (tend - t) with hc | hc
        · rw [min_eq_left hc] at hxe ⊢
          by_contra hcon
          push_neg at hcon
          have : tend = t + 1 / 10 := le_antisymm hcon (by linarith)
          rw [this] at hx2
          linarith
        · rw [min_eq_right (le_of_lt hc)] at hxe
          exfalso
          have : x ≤ t + (tend - t) := by linarith
          linarith
      have hmin : min (1 / 10 : ℚ) (tend - t) = 1 / 10 := by
        rcases le_or_lt (1 / 10 : ℚ) (tend - t) with hc | hc
        · exact min_eq_left hc
        · exfalso
          rw [min_eq_right (le_of_lt hc)] at hlt
          linarith
      rw [hmin] at hxe hlt
      have hs2 : (tend - (t + 1 / 10)) * 10 ≤ (k : ℚ) := by
        push_cast at hs ⊢
        linarith
      obtain ⟨p, hp, hp1, hp2⟩ := ih (t + 1 / 10) tend hs2 hlt x (le_of_lt hxe) hx2
      exact ⟨p, List.mem_cons_of_mem _ hp, hp1, hp2⟩

theorem idleFuel_suff (tstart tend : ℚ) (h : tstart < tend) :
    (tend - tstart) * 10 ≤ ((idleFuel tstart tend : ℕ) : ℚ) := by
  have h1 : ((tend - tstart) * 10 : ℚ) ≤ (⌈(tend - tstart) * 10⌉ : ℚ) := Int.le_ceil _
  have h2 : (0 : ℤ) ≤ ⌈(tend - tstart) * 10⌉ := by
    apply Int.ceil_nonneg
    nlinarith
  rw [idleFuel]
  calc (tend - tstart) * 10 ≤ ((⌈(tend - tstart) * 10⌉ : ℤ) : ℚ) := h1
    _ = ((⌈(tend - tstart) * 10⌉.toNat : ℕ) : ℚ) := by
        exact_mod_cast (congrArg (fun z : ℤ => (z : ℚ)) (Int.toNat_of_nonneg h2)).symm

/-- C8: for `tstart < tend`, the idle loop animates consecutive
sub-intervals starting at `tstart`, each of positive length at most `0.1`
and ending no later than `tend`, chained end-to-start, with the last one
ending exactly at `tend`, and together covering `[tstart, tend]`. -/
theorem onIdle_substeps (tstart tend : ℚ) (h : tstart < tend) :
    (∃ rest, animateCalls tstart tend =
      (tstart, tstart + min (1 / 10) (tend - tstart)) :: rest) ∧
    (∀ p ∈ animateCalls tstart tend,
      p.1 < p.2 ∧ p.2 - p.1 ≤ 1 / 10 ∧ p.2 ≤ tend) ∧
    List.Chain' (fun p q => q.1 = p.2) (animateCalls tstart tend) ∧
    (∃ q, (animateCalls tstart tend).getLast? = some q ∧ q.2 = tend) ∧
    (∀ x : ℚ, tstart ≤ x → x ≤ tend →
      ∃ p ∈ animateCalls tstart tend, p.1 ≤ x ∧ x ≤ p.2) := by
  have hsuff := idleFuel_suff tstart tend h
  have hfuel : 1 ≤ idleFuel tstart tend := by
    by_contra hcon
    push_neg at hcon
    have hf0 : idleFuel tstart tend = 0 := by omega
    rw [hf0] at hsuff
    simp only [Nat.cast_zero] at hsuff
    nlinarith
  refine ⟨onIdleAux_head _ tstart tend hfuel h, ?_, onIdleAux_chain _ tstart tend,
    onIdleAux_last _ tstart tend hsuff h, onIdleAux_cover _ tstart tend hsuff h⟩
  intro p hp
  obtain ⟨h1, h2⟩ := onIdleAux_mem _ tstart tend p hp
  have hmin1 : min (1 / 10 : ℚ) (tend - p.1) ≤ 1 / 10 := min_le_left _ _
  have hmin2 : min (1 / 10 : ℚ) (tend - p.1) ≤ tend - p.1 := min_le_right _ _
  have hpos : 0 < min (1 / 10 : ℚ) (tend - p.1) := by
    apply lt_min
    · norm_num
    · linarith
  refine ⟨by rw [h1]; linarith, by rw [h1]; linarith, by rw [h1]; linarith⟩

/-- Witness for C8 on the concrete frame `[0, 1/4]`. -/
theorem onIdle_substeps_witness :
    (0 : ℚ) < 1 / 4 ∧
    List.Chain' (fun p q : ℚ × ℚ => q.1 = p.2) (animateCalls 0 (1 / 4)) :=
  ⟨by norm_num, (onIdle_substeps 0 (1 / 4) (by norm_num)).2.2.1⟩

/-! ### C3: the sphere mapping yields unit-norm positions -/

/-- The position generated by the sphere mapping, written out. -/
theorem sphere_position (u v : ℝ) :
    (GenVertexData sphereEval u v).position =
      ⟨Real.cos (u * 2 * Real.pi) * Real.sin (v * Real.pi),
       Real.sin (u * 2 * Real.pi) * Real.sin (v * Real.pi),
       Real.cos (v * Real.pi)⟩ := by
  simp [GenVertexData, sphereEval, dMul, dCos, dSin, dConst]

/-- C3: for every `(u, v)` (in particular throughout `[0,1]²`), the
position produced by the sphere mapping has Euclidean norm 1. -/
theorem sphere_unit_norm (u v : ℝ) :
    norm3 (GenVertexData sphereEval u v).position = 1 := by
  rw [sphere_position, norm3]
  have h : dot3 ⟨Real.cos (u * 2 * Real.pi) * Real.sin (v * Real.pi),
       Real.sin (u * 2 * Real.pi) * Real.sin (v * Real.pi),
       Real.cos (v * Real.pi)⟩
      ⟨Real.cos (u * 2 * Real.pi) * Real.sin (v * Real.pi),
       Real.sin (u * 2 * Real.pi) * Real.sin (v * Real.pi),
       Real.cos (v * Real.pi)⟩ = 1 := by
    simp only [dot3]
    nlinarith [Real.sin_sq_add_cos_sq (u * 2 * Real.pi),
      Real.sin_sq_add_cos_sq (v * Real.pi)]
  rw [h, Real.sqrt_one]

/-! ### C4: generated vertex = value components and raw cross-product
normal -/

/-- C4: for every surface evaluator and parameter pair, the generated
vertex's position is the triple of dual-number value components and its
normal is exactly (with no normalization) the cross product of the two
tangent vectors read from the gradients; a tangent pair that is linearly
dependent yields the zero normal, as happens concretely at the sphere pole
`v = 0`. -/
theorem genVertexData_spec :
    (∀ (eval : Dnum2 → Dnum2 → Dnum2 × Dnum2 × Dnum2) (u v : ℝ),
      (GenVertexData eval u v).position =
        ⟨(eval ⟨u, ⟨1, 0⟩⟩ ⟨v, ⟨0, 1⟩⟩).1.f,
         (eval ⟨u, ⟨1, 0⟩⟩ ⟨v, ⟨0, 1⟩⟩).2.1.f,
         (eval ⟨u, ⟨1, 0⟩⟩ ⟨v, ⟨0, 1⟩⟩).2.2.f⟩ ∧
      (GenVertexData eval u v).normal =
        cross3
          ⟨(eval ⟨u, ⟨1, 0⟩⟩ ⟨v, ⟨0, 1⟩⟩).1.d.x,
           (eval ⟨u, ⟨1, 0⟩⟩ ⟨v, ⟨0, 1⟩⟩).2.1.d.x,
           (eval ⟨u, ⟨1, 0⟩⟩ ⟨v, ⟨0, 1⟩⟩).2.2.d.x⟩
          ⟨(eval ⟨u, ⟨1, 0⟩⟩ ⟨v, ⟨0, 1⟩⟩).1.d.y,
           (eval ⟨u, ⟨1, 0⟩⟩ ⟨v, ⟨0, 1⟩⟩).2.1.d.y,
           (eval ⟨u, ⟨1, 0⟩⟩ ⟨v, ⟨0, 1⟩⟩).2.2.d.y⟩) ∧
    (∀ (a b : vec3) (c : ℝ), b = smul3 c a → cross3 a b = ⟨0, 0, 0⟩) ∧
    ((GenVertexData sphereEval 0 0).normal = ⟨0, 0, 0⟩) := by
  refine ⟨fun eval u v => ⟨rfl, rfl⟩, ?_, ?_⟩
  · intro a b c hb
    subst hb
    simp only [cross3, smul3, vec3.mk.injEq]
    refine ⟨by ring, by ring, by ring⟩
  · simp [GenVertexData, sphereEval, dMul, dCos, dSin, dConst, cross3]

/-- Witness for C4: a concrete linearly dependent tangent pair has zero
cross product. -/
theorem genVertexData_spec_witness :
    (⟨2, 0, 0⟩ : vec3) = smul3 2 ⟨1, 0, 0⟩ ∧
    cross3 ⟨1, 0, 0⟩ ⟨2, 0, 0⟩ = ⟨0, 0, 0⟩ := by
  have hb : (⟨2, 0, 0⟩ : vec3) = smul3 2 ⟨1, 0, 0⟩ := by
    simp [smul3]
  exact ⟨hb, genVertexData_spec.2.1 ⟨1, 0, 0⟩ ⟨2, 0, 0⟩ 2 hb⟩

/-! ### C6: Phong-Blinn fragment radiance -/

/-- Componentwise equality determines `vec3` equality. -/
theorem vec3_eq (a b : vec3) (h1 : a.x = b.x) (h2 : a.y = b.y)
    (h3 : a.z = b.z) : a = b := by
  cases a; cases b; simp_all

/-- A fold accumulating vector sums equals the initial value plus the sum
of the mapped list. -/
theorem foldl_add3 {α : Type} (g : α → vec3) (l : List α) (z : vec3) :
    l.foldl (fun r x => r + g x) z = z + sum3 (l.map g) := by
  induction l generalizing z with
  | nil =>
    apply vec3_eq <;> simp [sum3]
  | cons a l ih =>
    simp only [List.foldl_cons, List.map_cons, sum3, List.foldr_cons]
    rw [ih]
    apply vec3_eq <;> simp [sum3] <;> ring

/-- C6 (amended): the per-pixel Phong-Blinn fragment radiance is the sum
over the active lights of `ka·La + (kd·texColor·cosθ + ks·cosφ^shininess)·Le`
where `ka = material.ka · texColor` is texture-modulated once but the
diffuse factor `kd = material.kd · texColor` is multiplied by `texColor`
once more inside the sum, so the diffuse term carries the texture color
twice; `cosθ = max(N·L, 0)` and `cosφ = max(N·H, 0)` with `H` the
normalized half vector. -/
theorem phong_radiance_formula (material : Material) (texColor : vec3)
    (wNormal wView : vec3) (lightsIn : List (Light × vec3)) :
    phongFragment material texColor wNormal wView lightsIn =
      sum3 (lightsIn.map fun li =>
        (material.ka * texColor) * li.1.La +
          ((material.kd * texColor) * texColor *
              max (dot3 (if dot3 (normalize3 wNormal) (normalize3 wView) < 0
                    then -normalize3 wNormal else normalize3 wNormal)
                  (normalize3 li.2)) 0 +
            material.ks *
              ((max (dot3 (if dot3 (normalize3 wNormal) (normalize3 wView) < 0
                      then -normalize3 wNormal else normalize3 wNormal)
                    (normalize3 (normalize3 li.2 + normalize3 wView))) 0) ^
                material.shininess)) *
            li.1.Le) := by
  rw [phongFragment]
  rw [foldl_add3 (fun li : Light × vec3 =>
    (material.ka * texColor) * li.1.La +
      ((material.kd * texColor) * texColor *
          max (dot3 (if dot3 (normalize3 wNormal) (normalize3 wView) < 0
                then -normalize3 wNormal else normalize3 wNormal)
              (normalize3 li.2)) 0 +
        material.ks *
          ((max (dot3 (if dot3 (normalize3 wNormal) (normalize3 wView) < 0
                  then -normalize3 wNormal else normalize3 wNormal)
                (normalize3 (normalize3 li.2 + normalize3 wView))) 0) ^
            material.shininess)) *
        li.1.Le) lightsIn ⟨0, 0, 0⟩]
  apply vec3_eq <;> simp

/-- C6 counterexample: at a fully lit fragment with texture color
`(1/2, 1/2, 1/2)`, `kd = (1,1,1)`, `ks = ka = 0`, the code computes the
diffuse term `kd·tex·tex = 1/4` per channel, while the claimed
"modulated exactly once" formula gives `kd·tex = 1/2`. -/
theorem phong_double_modulation_counterexample :
    phongFragment ⟨⟨1, 1, 1⟩, ⟨0, 0, 0⟩, ⟨0, 0, 0⟩, 1⟩
        ⟨1 / 2, 1 / 2, 1 / 2⟩ ⟨0, 0, 1⟩ ⟨0, 0, 1⟩
        [(⟨⟨0, 0, 0⟩, ⟨1, 1, 1⟩, ⟨0, 0, 0, 1⟩⟩, ⟨0, 0, 1⟩)] =
      ⟨1 / 4, 1 / 4, 1 / 4⟩ ∧
    phongClaimRadiance ⟨⟨1, 1, 1⟩, ⟨0, 0, 0⟩, ⟨0, 0, 0⟩, 1⟩
        ⟨1 / 2, 1 / 2, 1 / 2⟩ ⟨0, 0, 1⟩ ⟨0, 0, 1⟩
        [(⟨⟨0, 0, 0⟩, ⟨1, 1, 1⟩, ⟨0, 0, 0, 1⟩⟩, ⟨0, 0, 1⟩)] =
      ⟨1 / 2, 1 / 2, 1 / 2⟩ ∧
    phongFragment ⟨⟨1, 1, 1⟩, ⟨0, 0, 0⟩, ⟨0, 0, 0⟩, 1⟩
        ⟨1 / 2, 1 / 2, 1 / 2⟩ ⟨0, 0, 1⟩ ⟨0, 0, 1⟩
        [(⟨⟨0, 0, 0⟩, ⟨1, 1, 1⟩, ⟨0, 0, 0, 1⟩⟩, ⟨0, 0, 1⟩)] ≠
      phongClaimRadiance ⟨⟨1, 1, 1⟩, ⟨0, 0, 0⟩, ⟨0, 0, 0⟩, 1⟩
        ⟨1 / 2, 1 / 2, 1 / 2⟩ ⟨0, 0, 1⟩ ⟨0, 0, 1⟩
        [(⟨⟨0, 0, 0⟩, ⟨1, 1, 1⟩, ⟨0, 0, 0, 1⟩⟩, ⟨0, 0, 1⟩)] := by
  have hz : normalize3 ⟨0, 0, 1⟩ = ⟨0, 0, 1⟩ := by
    apply vec3_eq <;> simp [normalize3, dot3]
  have hsum : (⟨0, 0, 1⟩ : vec3) + ⟨0, 0, 1⟩ = ⟨0, 0, 2⟩ := by
    apply vec3_eq <;> simp <;> norm_num
  have hsqrt4 : Real.sqrt 4 = 2 := by
    rw [show (4 : ℝ) = 2 ^ 2 by norm_num, Real.sqrt_sq (by norm_num)]
  have hh : normalize3 ⟨0, 0, 2⟩ = ⟨0, 0, 1⟩ := by
    apply vec3_eq <;> simp [normalize3, dot3] <;> norm_num [hsqrt4]
  have hdot : dot3 ⟨0, 0, 1⟩ ⟨0, 0, 1⟩ = 1 := by simp [dot3]
  have hpow : ((max (1 : ℝ) 0) ^ (1 : ℝ)) = 1 := by
    rw [max_eq_left (by norm_num : (0 : ℝ) ≤ 1), Real.one_rpow]
  have hA : phongFragment ⟨⟨1, 1, 1⟩, ⟨0, 0, 0⟩, ⟨0, 0, 0⟩, 1⟩
      ⟨1 / 2, 1 / 2, 1 / 2⟩ ⟨0, 0, 1⟩ ⟨0, 0, 1⟩
      [(⟨⟨0, 0, 0⟩, ⟨1, 1, 1⟩, ⟨0, 0, 0, 1⟩⟩, ⟨0, 0, 1⟩)] =
      ⟨1 / 4, 1 / 4, 1 / 4⟩ := by
    rw [phongFragment]
    simp only [hz, hsum, hh, hdot]
    rw [if_neg (by norm_num)]
    simp only [List.foldl_cons, List.foldl_nil, hz, hsum, hh, hdot]
    apply vec3_eq <;> simp [hpow] <;> norm_num
  have hB : phongClaimRadiance ⟨⟨1, 1, 1⟩, ⟨0, 0, 0⟩, ⟨0, 0, 0⟩, 1⟩
      ⟨1 / 2, 1 / 2, 1 / 2⟩ ⟨0, 0, 1⟩ ⟨0, 0, 1⟩
      [(⟨⟨0, 0, 0⟩, ⟨1, 1, 1⟩, ⟨0, 0, 0, 1⟩⟩, ⟨0, 0, 1⟩)] =
      ⟨1 / 2, 1 / 2, 1 / 2⟩ := by
    rw [phongClaimRadiance]
    simp only [hz, hsum, hh, hdot]
    rw [if_neg (by norm_num)]
    simp only [List.map_cons, List.map_nil, sum3, List.foldr_cons,
      List.foldr_nil, hz, hsum, hh, hdot]
    apply vec3_eq <;> simp [hpow] <;> norm_num
  refine ⟨hA, hB, ?_⟩
  rw [hA, hB]
  intro hcon
  have hx := congrArg vec3.x hcon
  norm_num at hx

/-! ### C7: modeling transform round trip -/

/-- Componentwise equality determines `vec4` equality. -/
theorem vec4_eq (a b : vec4) (h1 : a.x = b.x) (h2 : a.y = b.y)
    (h3 : a.z = b.z) (h4 : a.w = b.w) : a = b := by
  cases a; cases b; simp_all

/-- Row-vector multiplication is compatible with matrix multiplication. -/
theorem mulVec4_mul (p : vec4) (A B : Mat4) :
    mulVec4 (mulVec4 p A) B = mulVec4 p (A * B) := by
  apply vec4_eq <;>
    simp [mulVec4, Matrix.mul_apply, Fin.sum_univ_four] <;> ring

/-- Row-vector multiplication by the identity matrix. -/
theorem mulVec4_one (p : vec4) : mulVec4 p 1 = p := by
  apply vec4_eq <;> simp [mulVec4, Matrix.one_apply]

/-- A translation composed with the opposite translation is the identity. -/
theorem trans_inv (t : vec3) :
    TranslateMatrix t * TranslateMatrix (-t) = 1 := by
  ext i j
  fin_cases i <;> fin_cases j <;>
    simp [TranslateMatrix, Matrix.mul_apply, Fin.sum_univ_four,
      Matrix.one_apply, Matrix.vecHead, Matrix.vecTail]

/-- A scale with nonzero components composed with the reciprocal scale is
the identity. -/
theorem scale_inv (s : vec3) (hx : s.x ≠ 0) (hy : s.y ≠ 0) (hz : s.z ≠ 0) :
    ScaleMatrix s * ScaleMatrix ⟨1 / s.x, 1 / s.y, 1 / s.z⟩ = 1 := by
  ext i j
  fin_cases i <;> fin_cases j <;>
    simp [ScaleMatrix, Matrix.mul_apply, Fin.sum_univ_four, Matrix.one_apply,
      Matrix.vecHead, Matrix.vecTail, mul_one_div, div_self, hx, hy, hz]

/-- Normalizing a nonzero vector yields a unit vector. -/
theorem normalize3_unit (v : vec3) (h : v ≠ ⟨0, 0, 0⟩) :
    (normalize3 v).x ^ 2 + (normalize3 v).y ^ 2 + (normalize3 v).z ^ 2 = 1 := by
  have hval : dot3 v v = v.x ^ 2 + v.y ^ 2 + v.z ^ 2 := by
    simp [dot3]; ring
  have hne : dot3 v v ≠ 0 := by
    intro h0
    apply h
    rw [hval] at h0
    have hx2 : v.x ^ 2 = 0 := by nlinarith [sq_nonneg v.x, sq_nonneg v.y, sq_nonneg v.z]
    have hy2 : v.y ^ 2 = 0 := by nlinarith [sq_nonneg v.x, sq_nonneg v.y, sq_nonneg v.z]
    have hz2 : v.z ^ 2 = 0 := by nlinarith [sq_nonneg v.x, sq_nonneg v.y, sq_nonneg v.z]
    exact vec3_eq v ⟨0, 0, 0⟩ (by simpa using pow_eq_zero_iff (n := 2) (by omega) |>.mp hx2)
      (by simpa using pow_eq_zero_iff (n := 2) (by omega) |>.mp hy2)
      (by simpa using pow_eq_zero_iff (n := 2) (by omega) |>.mp hz2)
  have hpos : 0 < dot3 v v := by
    rcases lt_or_eq_of_le (by rw [hval]; positivity : (0 : ℝ) ≤ dot3 v v) with hlt | heq
    · exact hlt
    · exact absurd heq.symm hne
  simp only [normalize3, smul3_x, smul3_y, smul3_z]
  have hrw : (1 / Real.sqrt (dot3 v v) * v.x) ^ 2 +
      (1 / Real.sqrt (dot3 v v) * v.y) ^ 2 +
      (1 / Real.sqrt (dot3 v v) * v.z) ^ 2 =
      (v.x ^ 2 + v.y ^ 2 + v.z ^ 2) / (Real.sqrt (dot3 v v)) ^ 2 := by
    field_simp
  rw [hrw, Real.sq_sqrt hpos.le, ← hval]
  exact div_self hne

/-- Rotating by `θ` and then by `-θ` about the same nonzero axis is the
identity (the normalized axis makes the Rodrigues matrix orthogonal). -/
theorem rot_mul_rot_neg (θ : ℝ) (ax : vec3) (ha : ax ≠ ⟨0, 0, 0⟩) :
    RotationMatrix θ ax * RotationMatrix (-θ) ax = 1 := by
  have h1 := normalize3_unit ax ha
  have h2 : (Real.sin θ) ^ 2 + (Real.cos θ) ^ 2 = 1 := Real.sin_sq_add_cos_sq θ
  rw [RotationMatrix, RotationMatrix, Real.cos_neg, Real.sin_neg]
  ext i j
  fin_cases i <;> fin_cases j <;>
    simp [Matrix.mul_apply, Fin.sum_univ_four, Matrix.one_apply,
      Matrix.vecHead, Matrix.vecTail]
  · linear_combination ((1 - Real.cos θ) ^ 2 * (normalize3 ax).x ^ 2 + (Real.sin θ) ^ 2) * h1 + (1 - (normalize3 ax).x ^ 2) * h2
  · linear_combination ((1 - Real.cos θ) ^ 2 * (normalize3 ax).x * (normalize3 ax).y) * h1 + (-((normalize3 ax).x * (normalize3 ax).y)) * h2
  · linear_combination ((1 - Real.cos θ) ^ 2 * (normalize3 ax).x * (normalize3 ax).z) * h1 + (-((normalize3 ax).x * (normalize3 ax).z)) * h2
  · linear_combination ((1 - Real.cos θ) ^ 2 * (normalize3 ax).x * (normalize3 ax).y) * h1 + (-((normalize3 ax).x * (normalize3 ax).y)) * h2
  · linear_combination ((1 - Real.cos θ) ^ 2 * (normalize3 ax).y ^ 2 + (Real.sin θ) ^ 2) * h1 + (1 - (normalize3 ax).y ^ 2) * h2
  · linear_combination ((1 - Real.cos θ) ^ 2 * (normalize3 ax).y * (normalize3 ax).z) * h1 + (-((normalize3 ax).y * (normalize3 ax).z)) * h2
  · linear_combination ((1 - Real.cos θ) ^ 2 * (normalize3 ax).x * (normalize3 ax).z) * h1 + (-((normalize3 ax).x * (normalize3 ax).z)) * h2
  · linear_combination ((1 - Real.cos θ) ^ 2 * (normalize3 ax).y * (normalize3 ax).z) * h1 + (-((normalize3 ax).y * (normalize3 ax).z)) * h2
  · linear_combination ((1 - Real.cos θ) ^ 2 * (normalize3 ax).z ^ 2 + (Real.sin θ) ^ 2) * h1 + (1 - (normalize3 ax).z ^ 2) * h2

/-- C7 (amended): for every object whose scale components are all nonzero
AND whose rotation axis is nonzero, the model matrix and the stated
inverse of `SetModelingTransform` compose to the identity and round-trip
every point.  (A zero rotation axis is excluded: its normalization is a
division by zero.) -/
theorem model_matrix_round_trip (o : Object)
    (hx : o.scale.x ≠ 0) (hy : o.scale.y ≠ 0) (hz : o.scale.z ≠ 0)
    (ha : o.rotationAxis ≠ ⟨0, 0, 0⟩) :
    (SetModelingTransform o).1 * (SetModelingTransform o).2 = 1 ∧
    ∀ p : vec4, mulVec4 (mulVec4 p (SetModelingTransform o).1)
      (SetModelingTransform o).2 = p := by
  have hT := trans_inv o.translation
  have hR := rot_mul_rot_neg o.rotationAngle o.rotationAxis ha
  have hS := scale_inv o.scale hx hy hz
  have hmain : (SetModelingTransform o).1 * (SetModelingTransform o).2 = 1 := by
    show ScaleMatrix o.scale * RotationMatrix o.rotationAngle o.rotationAxis *
        TranslateMatrix o.translation *
        (TranslateMatrix (-o.translation) *
          RotationMatrix (-o.rotationAngle) o.rotationAxis *
          ScaleMatrix ⟨1 / o.scale.x, 1 / o.scale.y, 1 / o.scale.z⟩) = 1
    calc ScaleMatrix o.scale * RotationMatrix o.rotationAngle o.rotationAxis *
        TranslateMatrix o.translation *
        (TranslateMatrix (-o.translation) *
          RotationMatrix (-o.rotationAngle) o.rotationAxis *
          ScaleMatrix ⟨1 / o.scale.x, 1 / o.scale.y, 1 / o.scale.z⟩) =
        ScaleMatrix o.scale *
          ((RotationMatrix o.rotationAngle o.rotationAxis *
            (TranslateMatrix o.translation * TranslateMatrix (-o.translation)) *
            RotationMatrix (-o.rotationAngle) o.rotationAxis) *
          ScaleMatrix ⟨1 / o.scale.x, 1 / o.scale.y, 1 / o.scale.z⟩) := by
          noncomm_ring
      _ = 1 := by
          rw [hT, mul_one, hR, one_mul, hS]
  exact ⟨hmain, fun p => by rw [mulVec4_mul, hmain, mulVec4_one]⟩

/-- Witness for C7 (amended) at a concrete nondegenerate object. -/
theorem model_matrix_round_trip_witness :
    (⟨0, 0, 0, 0, ⟨1, 2, 3⟩, ⟨4, 5, 6⟩, ⟨0, 1, 0⟩, 0⟩ : Object).scale.x ≠ 0 ∧
    (⟨0, 0, 0, 0, ⟨1, 2, 3⟩, ⟨4, 5, 6⟩, ⟨0, 1, 0⟩, 0⟩ : Object).rotationAxis ≠
      ⟨0, 0, 0⟩ ∧
    (SetModelingTransform ⟨0, 0, 0, 0, ⟨1, 2, 3⟩, ⟨4, 5, 6⟩, ⟨0, 1, 0⟩, 0⟩).1 *
      (SetModelingTransform ⟨0, 0, 0, 0, ⟨1, 2, 3⟩, ⟨4, 5, 6⟩, ⟨0, 1, 0⟩, 0⟩).2 =
      1 := by
  have ha : (⟨0, 0, 0, 0, ⟨1, 2, 3⟩, ⟨4, 5, 6⟩, ⟨0, 1, 0⟩, 0⟩ :
      Object).rotationAxis ≠ ⟨0, 0, 0⟩ := by
    intro hcon
    have := congrArg vec3.y hcon
    norm_num at this
  exact ⟨by norm_num, ha,
    (model_matrix_round_trip _ (by norm_num) (by norm_num) (by norm_num) ha).1⟩

/-- C7 counterexample: for `badObject` (unit scale, zero translation,
zero rotation axis, angle `π/2`) the claimed round trip fails: the point
`(1,0,0)` maps to `(0,0,0)`. -/
theorem model_matrix_round_trip_counterexample :
    mulVec4 (mulVec4 ⟨1, 0, 0, 1⟩ (SetModelingTransform badObject).1)
      (SetModelingTransform badObject).2 ≠ ⟨1, 0, 0, 1⟩ := by
  have hnorm : normalize3 ⟨0, 0, 0⟩ = ⟨0, 0, 0⟩ := by
    apply vec3_eq <;> simp [normalize3, dot3]
  intro hcon
  rw [SetModelingTransform] at hcon
  simp only [badObject] at hcon
  rw [show (-(⟨0, 0, 0⟩ : vec3)) = ⟨0, 0, 0⟩ from by
    apply vec3_eq <;> simp] at hcon
  rw [RotationMatrix, RotationMatrix] at hcon
  simp only [hnorm] at hcon
  have hx := congrArg vec4.x hcon
  simp [mulVec4, ScaleMatrix, TranslateMatrix, Matrix.mul_apply,
    Fin.sum_univ_four, Real.cos_pi_div_two, Real.sin_pi_div_two,
    Real.cos_neg, Real.sin_neg, Matrix.vecHead, Matrix.vecTail] at hx

/-! ### C1: dual-number automatic differentiation is exact -/

/-- Componentwise equality determines `vec2` equality. -/
theorem vec2_eq (a b : vec2) (h1 : a.x = b.x) (h2 : a.y = b.y) : a = b := by
  cases a; cases b; simp_all

/-- Value/gradient equality determines `Dnum2` equality. -/
theorem dnum2_eq (a b : Dnum2) (h1 : a.f = b.f) (h2 : a.d = b.d) : a = b := by
  cases a; cases b; simp_all

/-- Addition of dual numbers carries the sum rule. -/
theorem isD_add {F G : ℝ → ℝ → ℝ} {u v : ℝ} {g h : Dnum2}
    (hg : IsD F u v g) (hh : IsD G u v h) :
    IsD (fun a b => F a b + G a b) u v (dAdd g h) := by
  obtain ⟨hgf, hgu, hgv⟩ := hg
  obtain ⟨hhf, hhu, hhv⟩ := hh
  refine ⟨by simp [dAdd, hgf, hhf], ?_, ?_⟩
  · rw [show (dAdd g h).d.x = g.d.x + h.d.x from by simp [dAdd]]
    exact hgu.add hhu
  · rw [show (dAdd g h).d.y = g.d.y + h.d.y from by simp [dAdd]]
    exact hgv.add hhv

/-- Subtraction of dual numbers carries the difference rule. -/
theorem isD_sub {F G : ℝ → ℝ → ℝ} {u v : ℝ} {g h : Dnum2}
    (hg : IsD F u v g) (hh : IsD G u v h) :
    IsD (fun a b => F a b - G a b) u v (dSub g h) := by
  obtain ⟨hgf, hgu, hgv⟩ := hg
  obtain ⟨hhf, hhu, hhv⟩ := hh
  refine ⟨by simp [dSub, hgf, hhf], ?_, ?_⟩
  · rw [show (dSub g h).d.x = g.d.x - h.d.x from by simp [dSub]]
    exact hgu.sub hhu
  · rw [show (dSub g h).d.y = g.d.y - h.d.y from by simp [dSub]]
    exact hgv.sub hhv

/-- Multiplication of dual numbers carries the product rule. -/
theorem isD_mul {F G : ℝ → ℝ → ℝ} {u v : ℝ} {g h : Dnum2}
    (hg : IsD F u v g) (hh : IsD G u v h) :
    IsD (fun a b => F a b * G a b) u v (dMul g h) := by
  obtain ⟨hgf, hgu, hgv⟩ := hg
  obtain ⟨hhf, hhu, hhv⟩ := hh
  refine ⟨by simp [dMul, hgf, hhf], ?_, ?_⟩
  · rw [show (dMul g h).d.x = g.d.x * G u v + F u v * h.d.x from by
      simp [dMul, hgf, hhf]; ring]
    exact hgu.mul hhu
  · rw [show (dMul g h).d.y = g.d.y * G u v + F u v * h.d.y from by
      simp [dMul, hgf, hhf]; ring]
    exact hgv.mul hhv

/-- Division of dual numbers carries the quotient rule where the
denominator value is nonzero. -/
theorem isD_div {F G : ℝ → ℝ → ℝ} {u v : ℝ} {g h : Dnum2}
    (hg : IsD F u v g) (hh : IsD G u v h) (h0 : G u v ≠ 0) :
    IsD (fun a b => F a b / G a b) u v (dDiv g h) := by
  obtain ⟨hgf, hgu, hgv⟩ := hg
  obtain ⟨hhf, hhu, hhv⟩ := hh
  refine ⟨by simp [dDiv, hgf, hhf], ?_, ?_⟩
  · rw [show (dDiv g h).d.x = (g.d.x * G u v - F u v * h.d.x) / G u v ^ 2 from by
      simp only [dDiv, vdiv2_x, sub2_x, smul2_x, hgf, hhf, div_div, ← pow_two]
      ring_nf]
    exact hgu.div hhu h0
  · rw [show (dDiv g h).d.y = (g.d.y * G u v - F u v * h.d.y) / G u v ^ 2 from by
      simp only [dDiv, vdiv2_y, sub2_y, smul2_y, hgf, hhf, div_div, ← pow_two]
      ring_nf]
    exact hgv.div hhv h0

/-- `Exp` carries the chain rule. -/
theorem isD_exp {F : ℝ → ℝ → ℝ} {u v : ℝ} {g : Dnum2} (hg : IsD F u v g) :
    IsD (fun a b => Real.exp (F a b)) u v (dExp g) := by
  obtain ⟨hgf, hgu, hgv⟩ := hg
  refine ⟨by simp [dExp, hgf], ?_, ?_⟩
  · rw [show (dExp g).d.x = Real.exp (F u v) * g.d.x from by simp [dExp, hgf]]
    exact hgu.exp
  · rw [show (dExp g).d.y = Real.exp (F u v) * g.d.y from by simp [dExp, hgf]]
    exact hgv.exp

/-- `Sin` carries the chain rule. -/
theorem isD_sin {F : ℝ → ℝ → ℝ} {u v : ℝ} {g : Dnum2} (hg : IsD F u v g) :
    IsD (fun a b => Real.sin (F a b)) u v (dSin g) := by
  obtain ⟨hgf, hgu, hgv⟩ := hg
  refine ⟨by simp [dSin, hgf], ?_, ?_⟩
  · rw [show (dSin g).d.x = Real.cos (F u v) * g.d.x from by simp [dSin, hgf]]
    exact hgu.sin
  · rw [show (dSin g).d.y = Real.cos (F u v) * g.d.y from by simp [dSin, hgf]]
    exact hgv.sin

/-- `Cos` carries the chain rule. -/
theorem isD_cos {F : ℝ → ℝ → ℝ} {u v : ℝ} {g : Dnum2} (hg : IsD F u v g) :
    IsD (fun a b => Real.cos (F a b)) u v (dCos g) := by
  obtain ⟨hgf, hgu, hgv⟩ := hg
  refine ⟨by simp [dCos, hgf], ?_, ?_⟩
  · rw [show (dCos g).d.x = -Real.sin (F u v) * g.d.x from by simp [dCos, hgf]]
    exact hgu.cos
  · rw [show (dCos g).d.y = -Real.sin (F u v) * g.d.y from by simp [dCos, hgf]]
    exact hgv.cos

/-- `Sinh` carries the chain rule. -/
theorem isD_sinh {F : ℝ → ℝ → ℝ} {u v : ℝ} {g : Dnum2} (hg : IsD F u v g) :
    IsD (fun a b => Real.sinh (F a b)) u v (dSinh g) := by
  obtain ⟨hgf, hgu, hgv⟩ := hg
  refine ⟨by simp [dSinh, hgf], ?_, ?_⟩
  · rw [show (dSinh g).d.x = Real.cosh (F u v) * g.d.x from by simp [dSinh, hgf]]
    exact hgu.sinh
  · rw [show (dSinh g).d.y = Real.cosh (F u v) * g.d.y from by simp [dSinh, hgf]]
    exact hgv.sinh

/-- `Cosh` carries the chain rule. -/
theorem isD_cosh {F : ℝ → ℝ → ℝ} {u v : ℝ} {g : Dnum2} (hg : IsD F u v g) :
    IsD (fun a b => Real.cosh (F a b)) u v (dCosh g) := by
  obtain ⟨hgf, hgu, hgv⟩ := hg
  refine ⟨by simp [dCosh, hgf], ?_, ?_⟩
  · rw [show (dCosh g).d.x = Real.sinh (F u v) * g.d.x from by simp [dCosh, hgf]]
    exact hgu.cosh
  · rw [show (dCosh g).d.y = Real.sinh (F u v) * g.d.y from by simp [dCosh, hgf]]
    exact hgv.cosh

/-- `Log` carries the chain rule at positive values. -/
theorem isD_log {F : ℝ → ℝ → ℝ} {u v : ℝ} {g : Dnum2} (hg : IsD F u v g)
    (h0 : F u v ≠ 0) :
    IsD (fun a b => Real.log (F a b)) u v (dLog g) := by
  obtain ⟨hgf, hgu, hgv⟩ := hg
  refine ⟨by simp [dLog, hgf], ?_, ?_⟩
  · rw [show (dLog g).d.x = g.d.x / F u v from by simp [dLog, hgf]]
    exact hgu.log h0
  · rw [show (dLog g).d.y = g.d.y / F u v from by simp [dLog, hgf]]
    exact hgv.log h0

/-- `Tan = Sin/Cos` carries the chain rule away from zeros of cosine. -/
theorem isD_tan {F : ℝ → ℝ → ℝ} {u v : ℝ} {g : Dnum2} (hg : IsD F u v g)
    (h0 : Real.cos (F u v) ≠ 0) :
    IsD (fun a b => Real.sin (F a b) / Real.cos (F a b)) u v (dTan g) :=
  isD_div (isD_sin hg) (isD_cos hg) h0

/-- `Tanh = Sinh/Cosh` carries the chain rule (cosh never vanishes). -/
theorem isD_tanh {F : ℝ → ℝ → ℝ} {u v : ℝ} {g : Dnum2} (hg : IsD F u v g) :
    IsD (fun a b => Real.sinh (F a b) / Real.cosh (F a b)) u v (dTanh g) :=
  isD_div (isD_sinh hg) (isD_cosh hg) (Real.cosh_pos (F u v)).ne'

/-- `Pow` by a constant exponent carries the chain rule at positive
bases. -/
theorem isD_pow {F : ℝ → ℝ → ℝ} {u v : ℝ} {g : Dnum2} (hg : IsD F u v g)
    (n : ℝ) (h0 : F u v ≠ 0) :
    IsD (fun a b => (F a b) ^ n) u v (dPow g n) := by
  obtain ⟨hgf, hgu, hgv⟩ := hg
  refine ⟨by simp [dPow, hgf], ?_, ?_⟩
  · rw [show (dPow g n).d.x = n * F u v ^ (n - 1) * g.d.x from by
      simp [dPow, hgf]]
    have h := hgu.rpow_const (p := n) (Or.inl h0)
    convert h using 1
    ring
  · rw [show (dPow g n).d.y = n * F u v ^ (n - 1) * g.d.y from by
      simp [dPow, hgf]]
    have h := hgv.rpow_const (p := n) (Or.inl h0)
    convert h using 1
    ring

/-- C1: dual-number arithmetic carries exact derivatives: multiplication
and division (with nonzero denominator value) follow the product and
quotient rules componentwise, and for every composition `e` of the defined
operators and elementary functions that is well-formed at `(u, v)`, running
`e` through the dual-number combinators seeded with the unit basis
gradients yields the true value of `e` and both true partial derivatives
of `e` at `(u, v)`. -/
theorem dual_number_ad_correct :
    (∀ a b : Dnum2, dMul a b =
      ⟨a.f * b.f, ⟨a.f * b.d.x + a.d.x * b.f, a.f * b.d.y + a.d.y * b.f⟩⟩) ∧
    (∀ a b : Dnum2, b.f ≠ 0 → dDiv a b =
      ⟨a.f / b.f, ⟨(b.f * a.d.x - b.d.x * a.f) / b.f ^ 2,
                   (b.f * a.d.y - b.d.y * a.f) / b.f ^ 2⟩⟩) ∧
    (∀ (e : SurfExpr) (u v : ℝ), WF e u v →
      IsD (evalR e) u v (evalD e ⟨u, ⟨1, 0⟩⟩ ⟨v, ⟨0, 1⟩⟩)) := by
  refine ⟨?_, ?_, ?_⟩
  · intro a b
    apply dnum2_eq
    · rfl
    · apply vec2_eq <;> simp [dMul] <;> ring
  · intro a b hb
    apply dnum2_eq
    · rfl
    · apply vec2_eq <;>
        simp only [dDiv, vdiv2_x, vdiv2_y, sub2_x, sub2_y, smul2_x, smul2_y,
          div_div, ← pow_two] <;>
        ring_nf
  · intro e
    induction e with
    | varU =>
      intro u v _
      exact ⟨rfl, hasDerivAt_id u, hasDerivAt_const v u⟩
    | varV =>
      intro u v _
      exact ⟨rfl, hasDerivAt_const u v, hasDerivAt_id v⟩
    | const c =>
      intro u v _
      exact ⟨rfl, hasDerivAt_const u c, hasDerivAt_const v c⟩
    | add a b iha ihb =>
      intro u v hw
      exact isD_add (iha u v hw.1) (ihb u v hw.2)
    | sub a b iha ihb =>
      intro u v hw
      exact isD_sub (iha u v hw.1) (ihb u v hw.2)
    | mul a b iha ihb =>
      intro u v hw
      exact isD_mul (iha u v hw.1) (ihb u v hw.2)
    | div a b iha ihb =>
      intro u v hw
      exact isD_div (iha u v hw.1) (ihb u v hw.2.1) hw.2.2
    | exp a iha =>
      intro u v hw
      exact isD_exp (iha u v hw)
    | sin a iha =>
      intro u v hw
      exact isD_sin (iha u v hw)
    | cos a iha =>
      intro u v hw
      exact isD_cos (iha u v hw)
    | tan a iha =>
      intro u v hw
      exact isD_tan (iha u v hw.1) hw.2
    | sinh a iha =>
      intro u v hw
      exact isD_sinh (iha u v hw)
    | cosh a iha =>
      intro u v hw
      exact isD_cosh (iha u v hw)
    | tanh a iha =>
      intro u v hw
      exact isD_tanh (iha u v hw)
    | log a iha =>
      intro u v hw
      exact isD_log (iha u v hw.1) hw.2.ne'
    | pow a n iha =>
      intro u v hw
      exact isD_pow (iha u v hw.1) n hw.2.ne'

/-- Witness for C1: the expression `u * v` at `(2, 3)`, and the quotient
formula at a concrete dual-number pair. -/
theorem dual_number_ad_correct_witness :
    WF eUV 2 3 ∧
    (evalD eUV ⟨2, ⟨1, 0⟩⟩ ⟨3, ⟨0, 1⟩⟩).f = evalR eUV 2 3 ∧
    (dConst 2).f ≠ 0 ∧
    dDiv ⟨3, ⟨1, 0⟩⟩ (dConst 2) =
      ⟨3 / 2, ⟨(2 * 1 - 0 * 3) / 2 ^ 2, (2 * 0 - 0 * 3) / 2 ^ 2⟩⟩ := by
  have hwf : WF eUV 2 3 := ⟨trivial, trivial⟩
  have hb : (dConst 2).f ≠ 0 := by norm_num [dConst]
  refine ⟨hwf, (dual_number_ad_correct.2.2 eUV 2 3 hwf).1, hb, ?_⟩
  have h := dual_number_ad_correct.2.1 ⟨3, ⟨1, 0⟩⟩ (dConst 2) hb
  simpa [dConst] using h

end Grafika
